import Mathlib

/-!
Verification development for the SM2 elliptic-curve arithmetic core
(`src/sm2/p256.rs`, `src/sm2/p256/point.rs`, `src/sm2/key.rs`).

The repository's field-element representation (`payload.rs`), curve
constants (`params.rs`) and the `Elliptic` description (`ecc.rs`) are not
part of the sources provided; following the specification (§3, §4.1),
field elements are modelled as canonical residues mod the curve prime
(`ZMod P`), and the curve constants are the byte-string constants of the
standardized SM2 curve.  Every definition translated from a source file
names the function it embeds.
-/

namespace SM2

/-- Modelled from the spec: curve constant set (`EC_P` in `params.rs`, not
under `src/`) — the prime modulus of the standardized SM2 curve. -/
def P : Nat := 0xFFFFFFFEFFFFFFFFFFFFFFFFFFFFFFFFFFFFFFFF00000000FFFFFFFFFFFFFFFF

/-- Modelled from the spec: curve coefficient a (`EC_A` in `params.rs`). -/
def A : Nat := 0xFFFFFFFEFFFFFFFFFFFFFFFFFFFFFFFFFFFFFFFF00000000FFFFFFFFFFFFFFFC

/-- Modelled from the spec: curve coefficient b (`EC_B` in `params.rs`). -/
def B : Nat := 0x28E9FA9E9D9F5E344D5A9E4BCF6509A7F39789F515AB8F92DDBCBD414D940E93

/-- Modelled from the spec: subgroup order n (`EC_N` in `params.rs`). -/
def N : Nat := 0xFFFFFFFEFFFFFFFFFFFFFFFFFFFFFFFF7203DF6B21C6052B53BBF40939D54123

/-- Modelled from the spec: generator x-coordinate (`EC_GX` in `params.rs`). -/
def GX : Nat := 0x32C4AE2C1F1981195F9904466A39C9948FE30BBFF2660BE1715A4589334C74C7

/-- Modelled from the spec: generator y-coordinate (`EC_GY` in `params.rs`). -/
def GY : Nat := 0xBC3736A2F4F6779C59BDCEE36B692153D0A9877CC62A474002DF32E52139F0A0

/-- Modelled from the spec (§3, §4.1): a `Payload` (`payload.rs`, not under
`src/`) is a redundant representation of a residue mod p; canonical
comparison happens after `restore`.  We model it by the canonical residue
itself. -/
abbrev F : Type := ZMod P

/-- `PayloadHelper::restore` followed by `to_biguint`: the canonical
integer of a field element (spec §4.1: "restore(redundant form) →
canonical integer"). -/
def restore (a : F) : Nat := a.val

/-- `PayloadHelper::transform`: canonical integer → field element. -/
def transform (n : Nat) : F := (n : F)

/-- `Payload::add`. -/
def fadd (a b : F) : F := a + b

/-- `Payload::subtract`. -/
def fsub (a b : F) : F := a - b

/-- `Payload::multiply`. -/
def fmul (a b : F) : F := a * b

/-- `Payload::square`. -/
def fsquare (a : F) : F := a * a

/-- `Payload::scalar_multiply`: multiplication by a small constant. -/
def fscalar (k : Nat) (a : F) : F := (k : F) * a

/-- A Jacobian point `P256JacobianPoint(x, y, z)` (point.rs line 148). -/
abbrev Jac : Type := F × F × F

/-- An affine point `P256AffinePoint(x, y)` (point.rs line 19). -/
abbrev Aff : Type := F × F

/-- `P256JacobianPoint::double` (point.rs lines 154-174), operation for
operation: α=z², β=y², δ=4xβ, t₁=aα², t₂=8β², γ=3x²+t₁,
rx=γ²−δ−δ, ry=(δ−rx)γ−t₂, rz=(y+z)²−α−β. -/
def pDouble (p : Jac) : Jac :=
  let a := transform A
  let x := p.1
  let y := p.2.1
  let z := p.2.2
  let alpha := fsquare z
  let beta := fsquare y
  let delta := fscalar 4 (fmul x beta)
  let t1 := fmul a (fsquare alpha)
  let t2 := fscalar 8 (fsquare beta)
  let gama := fadd (fscalar 3 (fsquare x)) t1
  let rx := fsub (fsub (fsquare gama) delta) delta
  let ry := fsub (fmul (fsub delta rx) gama) t2
  let rz := fsub (fsub (fsquare (fadd y z)) alpha) beta
  (rx, ry, rz)

/-- `P256JacobianPoint::add_affine_point` (point.rs lines 182-212):
Jacobian + affine addition (add-2007-bl); incorrect for P+P and for the
point at infinity (the callers mask those cases). -/
def addAffinePoint (p : Jac) (q : Aff) : Jac :=
  let x1 := p.1
  let y1 := p.2.1
  let z1 := p.2.2
  let x2 := q.1
  let y2 := q.2
  let z1z1 := fsquare z1
  let temp := fadd z1 z1
  let u2 := fmul x2 z1z1
  let z1z1z1 := fmul z1 z1z1
  let s2 := fmul y2 z1z1z1
  let h := fsub u2 x1
  let i := fsquare (fadd h h)
  let j := fmul h i
  let r := fsub s2 y1
  let r := fadd r r
  let v := fmul x1 i
  let zOut := fmul temp h
  let rr := fsquare r
  let xOut := fsub (fsub (fsub rr j) v) v
  let temp := fsub v xOut
  let yOut := fmul temp r
  let temp := fmul y1 j
  let yOut := fsub (fsub yOut temp) temp
  (xOut, yOut, zOut)

/-- `P256JacobianPoint::add` (point.rs lines 286-344).  The coincident-point
branch computes `self.double()` and writes it through raw pointers into
`&mut self.0.data()`; `Payload::data` returns the limb array by value, so
the write lands in temporaries and the function always returns the
fall-through add-2007-bl result (which degenerates to (0,0,0) when the
canonicalized cross terms coincide, since h = r = 0). -/
def jacAdd (p q : Jac) : Jac :=
  let x1 := p.1
  let y1 := p.2.1
  let z1 := p.2.2
  let x2 := q.1
  let y2 := q.2.1
  let z2 := q.2.2
  if restore z1 = 0 then q
  else if restore z2 = 0 then p
  else
    let z12 := fsquare z1
    let z22 := fsquare z2
    let z13 := fmul z12 z1
    let z23 := fmul z22 z2
    let u1 := fmul x1 z22
    let u2 := fmul x2 z12
    let s1 := fmul y1 z23
    let s2 := fmul y2 z13
    let u1b := restore u1
    let u2b := restore u2
    let s1b := restore s1
    let s2b := restore s2
    -- the aliasing write of `self.double()` has no effect on the result:
    let _doubled := if u1b = u2b ∧ s1b = s2b then pDouble p else (0, 0, 0)
    let h := fsub u2 u1
    let r := fsub s2 s1
    let r2 := fsquare r
    let h2 := fsquare h
    let h3 := fmul h2 h
    let tmp := fmul u1 h2
    let x3 := fsub (fsub r2 (fmul h2 h)) (fscalar 2 tmp)
    let y3 := fsub (fmul r (fsub tmp x3)) (fmul h3 s1)
    let z3 := fmul (fmul z1 z2) h
    (x3, y3, z3)

/-- Fuel-based extended Euclid mirroring `BigInt::extended_gcd` from the
`num` crate (an external collaborator): returns Bézout coefficients
(x, y) with x·a + y·b = gcd(a, b), for sufficient fuel. -/
def egcd : Nat → Nat → Nat → Int × Int
  | 0, _, _ => (1, 0)
  | fuel + 1, a, b =>
    if b = 0 then (1, 0)
    else
      let q := a / b
      let r := a % b
      let s := egcd fuel b r
      (s.2, s.1 - (q : Int) * s.2)

/-- `P256JacobianPoint::to_affine_point` (point.rs lines 234-248):
z⁻¹ mod p via the extended Euclidean algorithm, then X = x·z⁻²,
Y = y·z⁻³. -/
def toAffinePoint (p : Jac) : Aff :=
  let z := restore p.2.2
  let zi := ((egcd 1000 z P).1.emod (P : Int)).toNat
  let alpha := transform zi
  let beta := fsquare alpha
  let gama := fmul alpha beta
  let x := fmul p.1 beta
  let y := fmul p.2.1 gama
  (x, y)

/-- `mask` (p256.rs lines 75-78): `x.wrapping_sub(1).wrapping_shr(31).wrapping_sub(1)`
on u32, modelled with explicit mod 2³². -/
def mask (x : Nat) : Nat :=
  (((x + (2 ^ 32 - 1)) % 2 ^ 32) >>> 31 + (2 ^ 32 - 1)) % 2 ^ 32

/-- `P256JacobianPoint::copy_from_with_conditional` (point.rs lines
216-230): limbwise `self ^ (mask & (source ^ self))`; on entry mask is 0
or 0xffffffff, selecting `self` or `source` respectively. -/
def copyFromWithConditional (self source : Jac) (m : Nat) : Jac :=
  if m = 2 ^ 32 - 1 then source else self

/-- `bit_of_scalar` (point.rs lines 354-356) on the 32-byte little-endian
scalar: bit `i` of the scalar value (the byte-array indexing equals plain
bit extraction for values below 2²⁵⁶). -/
def bitOfScalar (k : Nat) (i : Nat) : Nat := k >>> i &&& 1

/-- Modelled from the spec (§3): `EllipticBuilder::scalar_reduce`
(`ecc.rs`, not under `src/`) — scalars for point multiplication are
reduced mod the subgroup order n. -/
def scalarReduce (k : Nat) : Nat := k % N


/-- The generator in Jacobian form with z = 1. -/
def G1 : Jac := (transform GX, transform GY, transform 1)

/-- Iterated `double`. -/
def doubleN : Nat → Jac → Jac
  | 0, p => p
  | t + 1, p => doubleN t (pDouble p)

/-- Modelled from the spec (§3, §4.3): entry `idx` of group `g` of the
precomputed base-point table (`BASE_TABLE` in `params.rs`, not under
`src/`) is the point (b₀ + b₁·2⁶⁴ + b₂·2¹²⁸ + b₃·2¹⁹²)·2³²ᵍ·G where bₜ
are the bits of `idx`; entry 0 is the zero point.  The sum is built with
the repository's Jacobian `add`, which is exact here (the summands are
distinct non-infinity points). -/
def entryJac (g idx : Nat) : Jac :=
  (List.range 4).foldl
    (fun acc t =>
      if idx >>> t &&& 1 = 1 then jacAdd acc (doubleN (32 * (2 * t + g)) G1) else acc)
    (0, 0, 0)

/-- The spec-derived table group: affine entries 1..15. -/
def tableGroupSpec (g : Nat) : List Aff :=
  (List.range 15).map (fun i => toAffinePoint (entryJac g (i + 1)))

/-- The affine entries 1..15 of base-table group 0 (bit group j = 0), as
canonical residues; `tableG0_eq` proves them equal to the spec-derived
table `tableGroupSpec 0`. -/
def tableG0 : List Aff :=
  [
   (transform 22963146547237050559479531362550074578802567295341616970375194840604139615431,
    transform 85132369209828568825618990617112496413088388631904505083283536607588877201568),
   (transform 67705117572652837114471349525499634045614794997337890197046851983230464312599,
    transform 105231369456097397661386898492232980821817614166177179504943077059142844337611),
   (transform 59085058512652262766744473634923081986036205385486894268141155278033732483669,
    transform 109091573048984472073089738700806795212297391679525613544153843136436839439305),
   (transform 82580483505579888048248891498041876314786199024995590273835293449129297593069,
    transform 73029124966741147116568609485132862990712545849247788159814994149391419696555),
   (transform 86848041686756723114584433308299608942636941729527524331542225209405118928267,
    transform 54921675316658680818388274484536285985620228771232775428701918326977374721529),
   (transform 53209117963129755799540629530870949355596187090964143013579869346335355383829,
    transform 45310597926631255378856870098738145979682050257252233157641454365038168970041),
   (transform 98567493925580762823069255045984118054797882661099345921668929848869459512328,
    transform 110336070580595011796555767631269242586466863542034033617751385756889574188365),
   (transform 54842370261918212924648761054027838747829661419062947173569851166254391481878,
    transform 101426701570716438575530100482748050191536102803600044520927466495781527040827),
   (transform 12269061587400982443539020516506469528566294741841090734900028672205580665746,
    transform 16529702793016095588534532837075850571549425155399206504289122598772051188685),
   (transform 64434573173236480969138577404833282673523627011536882749755581097703792374498,
    transform 38739535235004306990435750688164009769761761056360970669716744546640331203293),
   (transform 34527691700877729035117129267209078061476481175212747565893731231603176390121,
    transform 4057743830030335104756212222018194631112125931021813403712247080186416358025),
   (transform 113019814001216926601167366326200148303289071208068658154223316262167530671662,
    transform 65771162203637495562352007069135952168431207244049062569251477870437195461279),
   (transform 98806970682279766809788238647846303670311504174553780897122205688916923498009,
    transform 80258702523420980907564925663081481092346280892548128526246151985709225657322),
   (transform 75015959162397789281735403142210955999780934098796070639937316793192444562854,
    transform 102622446084784894172630081175370402215434615166783993228004681223075583073513),
   (transform 98290966315732394635804879472297552049863842953830735255423745352015426579195,
    transform 86045662416818120197860942815200917482442774209509364262885407182405740581028)]

/-- The affine entries 1..15 of base-table group 1 (bit group j = 32);
see `tableG1_eq`. -/
def tableG1 : List Aff :=
  [
   (transform 27656645740463688420011061666403150467724038752015205298141582508658173133289,
    transform 61304494158713143023459198820689120461809067114069644647956890469746089234482),
   (transform 108139344675098469275811847961873270439384029870138508931592770477395992987795,
    transform 91247607565653826025006790553252720052512946813134830989326271521410331996106),
   (transform 85359681153702576556883230634214742275789753451618925904919914550988377036333,
    transform 66873501300530853990980802553524376253118396437397699315984027838391462443243),
   (transform 106457195765868536364301857874523844785410252372179228253876364442002381813742,
    transform 107558665886644582134143013748434047802917171807264665288908076345410766984360),
   (transform 11995388783463527963161320235598011443133654281944223275845079091542421530356,
    transform 45091550567191095463633359227681865179223863396298882402218668148298619203168),
   (transform 65680916170291054634978247076940207069084334509599166206181389158183842445169,
    transform 93601325927595405085934542000529005602143735667699607636748977760611906258815),
   (transform 101589270325472078746176225938550908594042745532146702365107714989046225324559,
    transform 113684684209056633113510565116378904222453305320567142458414464003889688617411),
   (transform 36796040157371402779777568491897504700018912309863314106301510062917872921119,
    transform 33802998356492310275031089417234972039148157891410161300315932567884179249254),
   (transform 66488641277053852730302653660870225029881480477562028952882483979720874598220,
    transform 99743473681205441932168817033637494197049301615605530110432679356592041584126),
   (transform 70864763812423826357624068784164251476901347076767930905614106456205281982106,
    transform 73541401817033626647357686253595872603029551111349278805929932338267627495469),
   (transform 97051910126062360804685778785862815989968717704058425286926543016103008215504,
    transform 78980949781813977431531298580258272721702876234975805785157623012510397909518),
   (transform 58116726195830150431978735967973133414545434092024546936076840239708566145733,
    transform 79590880309700856083792654844611904801820246021494422125788789091600826507188),
   (transform 113507193978715085869764764456228544548713455748597849005156375003692341976321,
    transform 7995840820734240198944361443325383476316681539831095849598291951368115094190),
   (transform 103747715251198567781280760790998494461126321874995293887400558681164610724761,
    transform 47261842213255175620960057316697558921664252110384882339850628875527359721111),
   (transform 64715719199968089545068383275043113115131965984698509435186423212657452236699,
    transform 37861092312862231610700917336955293410732275606119045543189054690171468843413)]

set_option maxRecDepth 100000 in
set_option maxHeartbeats 4000000 in
theorem tableG0_eq : tableG0 = tableGroupSpec 0 := by decide

set_option maxRecDepth 100000 in
set_option maxHeartbeats 4000000 in
theorem tableG1_eq : tableG1 = tableGroupSpec 1 := by decide

/-- `P256AffinePoint::select` (point.rs lines 34-55), modelled from the
spec (§4.2 select): the branchless mask accumulation returns table entry
`index` for 1 ≤ index ≤ 15 and the zero point for index 0. -/
def selectAffine (index : Nat) (table : List Aff) : Aff :=
  if index = 0 then ((0 : F), (0 : F)) else table.getD (index - 1) (0, 0)

/-- One `j`-iteration of the inner loop of `P256BasePoint::multiply`
(point.rs lines 107-140), at round `i`, bit group `j` ∈ {0, 32}; the
state is the running Jacobian accumulator and `n_is_infinity_mask`. -/
def stepJ (k i j : Nat) (st : Jac × Nat) : Jac × Nat :=
  let jacobian := st.1
  let ninf := st.2
  let bit0 := bitOfScalar k (31 - i + j)
  let bit1 := bitOfScalar k (95 - i + j)
  let bit2 := bitOfScalar k (159 - i + j)
  let bit3 := bitOfScalar k (223 - i + j)
  let idx := bit0 ||| bit1 <<< 1 ||| bit2 <<< 2 ||| bit3 <<< 3
  let affine := selectAffine idx (if j / 32 = 0 then tableG0 else tableG1)
  let temp := addAffinePoint jacobian affine
  let jacobian := copyFromWithConditional jacobian (affine.1, affine.2, transform 1) ninf
  let pfin := mask idx
  let m := pfin &&& (ninf ^^^ (2 ^ 32 - 1))
  let jacobian := copyFromWithConditional jacobian temp m
  let ninf := ninf &&& (pfin ^^^ (2 ^ 32 - 1))
  (jacobian, ninf)

/-- The outer loop of `P256BasePoint::multiply` (point.rs lines 101-141):
round `i` = 32 − fuel doubles the accumulator (skipped on round 0) and
consumes bit groups j = 0 and j = 32. -/
def baseLoop (k : Nat) : Nat → Jac × Nat → Jac × Nat
  | 0, st => st
  | c + 1, st =>
    let i := 32 - (c + 1)
    let st := if i = 0 then st else (pDouble st.1, st.2)
    let st := stepJ k i 0 st
    let st := stepJ k i 32 st
    baseLoop k c st

/-- `P256Elliptic::scalar_base_multiply` (p256.rs lines 59-69) composed
with `P256BasePoint::multiply` (point.rs lines 85-143): the scalar is
reduced mod n, run through the 32-round fixed-window loop, and the
accumulator is restored to canonical affine coordinates. -/
def scalarBaseMultiply (scalar : Nat) : Nat × Nat :=
  let k := scalarReduce scalar
  let st := baseLoop k 32 (((0 : F), (0 : F), (0 : F)), 2 ^ 32 - 1)
  let p := toAffinePoint st.1
  (restore p.1, restore p.2)

/-- `KeyGenerator::gen_public_key` (key.rs lines 168-171): P = d·G via
`scalar_base_multiply`. -/
def genPublicKey (d : Nat) : Nat × Nat := scalarBaseMultiply d

/-- `KeyGenerator::gen_private_key` (key.rs lines 152-163): the key is
(k mod (n − 2)) + 1 where k is the value drawn from the randomness
source. -/
def genPrivateKey (k : Nat) : Nat := k % (N - 2) + 1


/-- Big-endian base-256 digits of `n`, most significant first, no leading
zero digit; the fuel argument only bounds the recursion (any fuel with
256^fuel > n yields the digits). -/
def beAux : Nat → Nat → List Nat
  | 0, _ => []
  | f + 1, n => if n = 0 then [] else beAux f (n / 256) ++ [n % 256]

/-- `BigUint::to_bytes_be` from the `num` crate (external collaborator):
minimal big-endian bytes, `[0]` for zero. -/
def toBytesBE (n : Nat) : List Nat := if n = 0 then [0] else beAux n n

/-- `BigUint::from_bytes_be`: the value of a big-endian byte string. -/
def fromBytesBE (l : List Nat) : Nat := l.foldl (fun a b => a * 256 + b) 0

/-- The 32-byte copy pattern shared by `PrivateKey::encode` (key.rs lines
90-107) and `PublicKey::encode` (key.rs lines 29-55): a byte string longer
than 32 keeps its last 32 bytes, a shorter one is left-padded with zero
bytes into a 32-byte buffer. -/
def fixed32 (bs : List Nat) : List Nat :=
  if bs.length > 32 then bs.drop (bs.length - 32)
  else List.replicate (32 - bs.length) 0 ++ bs

/-- The lowercase hex digit (as an ASCII byte) of a value below 16, as
produced by `hex::encode`. -/
def hexDigit (d : Nat) : Nat := if d < 10 then 48 + d else 87 + d

/-- `hex::encode` (external collaborator): each byte becomes two lowercase
hex characters; strings are modelled as their UTF-8 byte lists. -/
def hexEncode (bs : List Nat) : List Nat :=
  bs.flatMap (fun b => [hexDigit (b / 16), hexDigit (b % 16)])

/-- `PrivateKey::encode` (key.rs lines 90-107): hex of the 32-byte
big-endian form of the key (truncated to the low 32 bytes when longer). -/
def privEncode (d : Nat) : List Nat := hexEncode (fixed32 (toBytesBE d))

/-- `PublicKey::encode` (key.rs lines 29-55): hex of
0x04 ‖ X (32 bytes) ‖ Y (32 bytes), each coordinate truncated or
left-padded to 32 bytes. -/
def pubEncode (x y : Nat) : List Nat :=
  hexEncode (4 :: (fixed32 (toBytesBE x) ++ fixed32 (toBytesBE y)))

/-- The UTF-8 byte list of an ASCII string (used to state expected
hex-string outputs). -/
def asciiBytes (s : String) : List Nat := s.data.map Char.toNat

set_option maxRecDepth 100000 in
set_option maxHeartbeats 4000000 in
/-- C1: feeding the private scalar
48358803002808206747871163666773640956067045543241775523137833706911222329998
into public-key derivation (`gen_public_key`, i.e. fixed-point
multiplication of the generator) yields the public point with
x = 76298453107918256108319614943154283626396976993715724710320433578462434588530 and
y = 22016840577845663905050918262284081863871275223913804750000840645022838962798,
and hex-encoding that private key and public key yields exactly
"6aea1ccf610488aaa7fddba3dd6d76d3bdfd50f957d847be3d453defb695f28e" and
"04a8af64e38eea41c254df769b5b41fbaa2d77b226b301a2636d463c52b46c777230ad1714e686dd641b9e04596530b38f6a64215b0ed3b081f8641724c5443a6e". -/
theorem c1_known_answer_vector :
    genPublicKey 48358803002808206747871163666773640956067045543241775523137833706911222329998 =
      (76298453107918256108319614943154283626396976993715724710320433578462434588530,
       22016840577845663905050918262284081863871275223913804750000840645022838962798) ∧
    privEncode 48358803002808206747871163666773640956067045543241775523137833706911222329998 =
      asciiBytes "6aea1ccf610488aaa7fddba3dd6d76d3bdfd50f957d847be3d453defb695f28e" ∧
    pubEncode 76298453107918256108319614943154283626396976993715724710320433578462434588530
        22016840577845663905050918262284081863871275223913804750000840645022838962798 =
      asciiBytes "04a8af64e38eea41c254df769b5b41fbaa2d77b226b301a2636d463c52b46c777230ad1714e686dd641b9e04596530b38f6a64215b0ed3b081f8641724c5443a6e" := by
  refine ⟨by decide, by decide, by decide⟩


/-- `BigUint::bits` (external collaborator): the bit length, 0 for 0;
fuel-based (fuel n suffices since n < 2ⁿ). -/
def bitsAux : Nat → Nat → Nat
  | 0, _ => 0
  | f + 1, n => if n = 0 then 0 else bitsAux f (n / 2) + 1

/-- Bit length of a natural number, `BigUint::bits` semantics. -/
def bitsLen (n : Nat) : Nat := bitsAux n n

/-- `carry as usize`. -/
def cbit (c : Bool) : Nat := if c then 1 else 0

/-- The mutable state of the `w_naf` loop (point.rs lines 369-392): the
remaining scalar `k`, the running carry, the scan position `pos`, the
absolute write index `length`, and the digit vector `naf`. -/
structure NafSt where
  k : Nat
  carry : Bool
  pos : Nat
  len : Nat
  naf : List Int

/-- The `while pos <= bits` loop of `w_naf` (point.rs lines 373-392): a
step either skips one agreeing bit or emits a signed window digit at
index `len + pos` and restarts the window at width 4.  Fuel 2·bits + 4
always lets the loop reach its exit condition, since every step increases
`len + pos`, which stays below 2·bits + 2 while the loop runs. -/
def wLoop (bits : Nat) : Nat → NafSt → NafSt
  | 0, st => st
  | fuel + 1, st =>
    if st.pos > bits then st
    else if st.k >>> st.pos &&& 1 = cbit st.carry then
      wLoop bits fuel { st with pos := st.pos + 1 }
    else
      let k := st.k >>> st.pos
      let d0 := (k &&& 15) + cbit st.carry
      let carry := d0 &&& 8 != 0
      let digit : Int := if carry then (d0 : Int) - 16 else (d0 : Int)
      let len := st.len + st.pos
      wLoop bits fuel { k := k, carry := carry, pos := 4, len := len, naf := st.naf.set len digit }

/-- `w_naf` (point.rs lines 359-403): wNAF recoding of a scalar into a
most-significant-first signed-digit list (the vector of `bits + 1` zeros
is written at the emitted indices, truncated past the last write, and
reversed). -/
def w_naf (scalar : Nat) : List Int :=
  let bits := bitsLen scalar
  let naf0 : List Int := List.replicate (bits + 1) 0
  if scalar = 0 then naf0
  else
    let st := wLoop bits (2 * bits + 4) ⟨scalar, false, 0, 0, naf0⟩
    (st.naf.take (st.len + 1)).reverse

/-- `impl Multiplication for P256AffinePoint` (point.rs lines 59-66):
`multiply` computes the wNAF recoding of the scalar and then hits
`todo!()` — it panics for every input and never produces a point,
modelled as `none`. -/
def affineMultiply (_pt : Aff) (scalar : Nat) : Option Aff :=
  let _recoded := w_naf scalar
  none

/-- `P256Elliptic::scalar_multiply` (p256.rs lines 51-57): variable-point
multiplication of (x, y) by the reduced scalar. -/
def scalarMultiply (x y scalar : Nat) : Option (Nat × Nat) :=
  (affineMultiply (transform x, transform y) (scalarReduce scalar)).map
    (fun p => (restore p.1, restore p.2))

/-- C2: the claim says fixed-point multiplication of the generator agrees
with variable-point multiplication of the generator for every scalar; in
the code `P256AffinePoint::multiply` is `todo!()`, so already at scalar 1
the variable-point path produces no result while the fixed-point path
returns the generator. -/
theorem c2_variable_point_multiply_unimplemented :
    scalarMultiply GX GY 1 = none ∧ scalarBaseMultiply 1 = (GX, GY) := by
  exact ⟨rfl, by decide⟩

/-- C3: the claim says `add(P1, P2)` on coincident points returns
`double(P1)`; at the concrete coincident input P1 = P2 = (gx, gy, 1) the
pointer-aliasing fix-up writes into temporaries, the function falls
through with h = r = 0, and returns the degenerate triple (0, 0, 0)
rather than `double(P1)`. -/
theorem c3_add_coincident_degenerates :
    jacAdd G1 G1 = ((0 : F), (0 : F), (0 : F)) ∧ jacAdd G1 G1 ≠ pDouble G1 := by
  exact ⟨by decide, by decide⟩

/-- C6: for every value k drawn from the randomness source, the generated
private key equals (k mod (n − 2)) + 1 and satisfies 1 ≤ d < n − 1. -/
theorem c6_private_key_range (k : Nat) :
    genPrivateKey k = k % (N - 2) + 1 ∧
    1 ≤ genPrivateKey k ∧ genPrivateKey k < N - 1 := by
  have h2 : 0 < N - 2 := by decide
  have h3 : k % (N - 2) < N - 2 := Nat.mod_lt _ h2
  refine ⟨rfl, ?_, ?_⟩ <;> simp only [genPrivateKey] <;> omega

/-- C8: `double` computes exactly the claimed formula sequence: with
α = z², β = y², δ = 4xβ, t₁ = aα², t₂ = 8β², γ = 3x² + t₁, the output is
x′ = γ² − 2δ, y′ = γ(δ − x′) − t₂, z′ = (y + z)² − α − β, as field
elements mod p. -/
theorem c8_double_formula (x y z : F) :
    pDouble (x, y, z) =
      (let alpha := z ^ 2
       let beta := y ^ 2
       let delta := 4 * x * beta
       let t1 := transform A * alpha ^ 2
       let t2 := 8 * beta ^ 2
       let gamma := 3 * x ^ 2 + t1
       let x' := gamma ^ 2 - 2 * delta
       (x', gamma * (delta - x') - t2, (y + z) ^ 2 - alpha - beta)) := by
  simp only [pDouble, fadd, fsub, fmul, fsquare, fscalar]
  refine Prod.ext ?_ (Prod.ext ?_ ?_) <;> simp only [transform] <;> push_cast <;> ring

/-- C10: for u32 inputs, `mask` returns 0xffffffff exactly when
1 ≤ x ≤ 2³¹ and 0 when x = 0 or x > 2³¹; in particular, for a 4-bit
table index idx < 16, `mask idx` is all-ones exactly when idx ≠ 0. -/
theorem c10_mask_characterization (x : Nat) (hx : x < 2 ^ 32) :
    ((x = 0 ∨ 2 ^ 31 < x) → mask x = 0) ∧
    (1 ≤ x → x ≤ 2 ^ 31 → mask x = 2 ^ 32 - 1) ∧
    (x < 16 → (mask x = 2 ^ 32 - 1 ↔ x ≠ 0)) := by
  have hp : (2 : Nat) ^ 32 = 4294967296 := by norm_num
  have hq : (2 : Nat) ^ 31 = 2147483648 := by norm_num
  simp only [mask, Nat.shiftRight_eq_div_pow, hp, hq]
  omega

/-- Witness for C10 at the concrete input x = 7. -/
theorem c10_mask_characterization_witness :
    (7 : Nat) < 2 ^ 32 ∧
    ((((7 : Nat) = 0 ∨ 2 ^ 31 < 7) → mask 7 = 0) ∧
     (1 ≤ 7 → (7 : Nat) ≤ 2 ^ 31 → mask 7 = 2 ^ 32 - 1) ∧
     ((7 : Nat) < 16 → (mask 7 = 2 ^ 32 - 1 ↔ (7 : Nat) ≠ 0))) :=
  ⟨by decide, c10_mask_characterization 7 (by decide)⟩



/-- Digit-list indexing with default 0. -/
def nafD (l : List Int) (i : Nat) : Int := l.getD i 0

/-- Every nonzero digit is odd and at most 15 in absolute value. -/
def GoodDigits (l : List Int) : Prop :=
  ∀ d ∈ l, d ≠ 0 → d.natAbs % 2 = 1 ∧ d.natAbs ≤ 15

/-- Any two nonzero digits sit at positions at least 4 apart. -/
def Sep4 (l : List Int) : Prop :=
  ∀ i j, i < j → nafD l i ≠ 0 → nafD l j ≠ 0 → i + 4 ≤ j

/-- The `wLoop` invariant: digits written so far are odd and bounded, all
nonzero digits sit at indices at most `len` and at least 4 apart, and the
window position is at least 4 once anything has been written. -/
def NafInv (st : NafSt) : Prop :=
  GoodDigits st.naf ∧
  (∀ i, nafD st.naf i ≠ 0 → i ≤ st.len) ∧
  Sep4 st.naf ∧
  ((∀ i, nafD st.naf i = 0) ∨ 4 ≤ st.pos)

theorem nafD_set (l : List Int) (L i : Nat) (d : Int) :
    nafD (l.set L d) i = if L = i ∧ L < l.length then d else nafD l i := by
  simp only [nafD, List.getD_eq_getElem?_getD, List.getElem?_set]
  by_cases h : L = i
  · subst h
    by_cases hL : L < l.length
    · simp [hL]
    · simp only [if_pos rfl, if_neg hL, hL, and_false, if_false]
      rw [List.getElem?_eq_none (by omega)]
      simp
  · simp [h]

theorem nafD_replicate (n i : Nat) : nafD (List.replicate n (0 : Int)) i = 0 := by
  simp only [nafD, List.getD_eq_getElem?_getD, List.getElem?_replicate]
  split <;> rfl

theorem wdigit_props (d0 : Nat) (h1 : d0 % 2 = 1) (h2 : d0 ≤ 15) :
    (if (d0 &&& 8 != 0) = true then (d0 : Int) - 16 else (d0 : Int)) ≠ 0 ∧
    ((if (d0 &&& 8 != 0) = true then (d0 : Int) - 16 else (d0 : Int)).natAbs % 2 = 1 ∧
     (if (d0 &&& 8 != 0) = true then (d0 : Int) - 16 else (d0 : Int)).natAbs ≤ 15) := by
  interval_cases d0 <;> revert h1 <;> decide

theorem nafInv_emit (l : List Int) (len pos : Nat) (d : Int)
    (h1 : GoodDigits l) (h2 : ∀ i, nafD l i ≠ 0 → i ≤ len)
    (h3 : Sep4 l) (h4 : (∀ i, nafD l i = 0) ∨ 4 ≤ pos)
    (hnz : d ≠ 0) (hodd : d.natAbs % 2 = 1) (hle : d.natAbs ≤ 15) :
    GoodDigits (l.set (len + pos) d) ∧
    (∀ i, nafD (l.set (len + pos) d) i ≠ 0 → i ≤ len + pos) ∧
    Sep4 (l.set (len + pos) d) := by
  refine ⟨?_, ?_, ?_⟩
  · intro e he hz
    rcases List.mem_or_eq_of_mem_set he with h | rfl
    · exact h1 e h hz
    · exact ⟨hodd, hle⟩
  · intro i hi
    rw [nafD_set] at hi
    by_cases hL : len + pos = i ∧ len + pos < l.length
    · omega
    · rw [if_neg hL] at hi
      exact le_trans (h2 i hi) (Nat.le_add_right _ _)
  · intro i j hij hi hj
    rw [nafD_set] at hi hj
    by_cases hiL : len + pos = i ∧ len + pos < l.length
    · rw [if_neg (by omega)] at hj
      have := h2 j hj
      omega
    · rw [if_neg hiL] at hi
      by_cases hjL : len + pos = j ∧ len + pos < l.length
      · have hil := h2 i hi
        rcases h4 with hz | h4
        · exact absurd (hz i) hi
        · omega
      · rw [if_neg hjL] at hj
        exact h3 i j hij hi hj

theorem wLoop_inv (bits : Nat) : ∀ fuel st, NafInv st → NafInv (wLoop bits fuel st) := by
  intro fuel
  induction fuel with
  | zero => intro st h; exact h
  | succ f ih =>
    intro st h
    rw [wLoop]
    by_cases hpb : st.pos > bits
    · rw [if_pos hpb]; exact h
    · rw [if_neg hpb]
      by_cases hskip : st.k >>> st.pos &&& 1 = cbit st.carry
      · rw [if_pos hskip]
        obtain ⟨h1, h2, h3, h4⟩ := h
        refine ih _ ⟨h1, h2, h3, ?_⟩
        rcases h4 with hz | hp
        · exact Or.inl hz
        · refine Or.inr ?_
          show 4 ≤ st.pos + 1
          omega
      · rw [if_neg hskip]
        obtain ⟨h1, h2, h3, h4⟩ := h
        have h15 : st.k >>> st.pos &&& 15 = (st.k >>> st.pos) % 16 := by
          have hx := Nat.and_pow_two_sub_one_eq_mod (st.k >>> st.pos) 4
          norm_num at hx
          exact hx
        rw [Nat.and_one_is_mod] at hskip
        have hd0 : ((st.k >>> st.pos &&& 15) + cbit st.carry) % 2 = 1 ∧
            (st.k >>> st.pos &&& 15) + cbit st.carry ≤ 15 := by
          rw [h15]
          revert hskip
          cases st.carry <;> simp only [cbit, if_true, if_false, Bool.false_eq_true,
            Bool.true_eq_false, ite_true, ite_false] <;> intro hskip <;> omega
        obtain ⟨hodd0, hle0⟩ := hd0
        have hprops := wdigit_props _ hodd0 hle0
        have hemit := nafInv_emit st.naf st.len st.pos _ h1 h2 h3 h4
          hprops.1 hprops.2.1 hprops.2.2
        exact ih _ ⟨hemit.1, hemit.2.1, hemit.2.2, Or.inr (le_refl 4)⟩

theorem nafD_ge_length (l : List Int) (i : Nat) (h : l.length ≤ i) : nafD l i = 0 := by
  simp [nafD, List.getD_eq_getElem?_getD, List.getElem?_eq_none h]

theorem nafD_reverse (l : List Int) (i : Nat) (h : i < l.length) :
    nafD l.reverse i = nafD l (l.length - 1 - i) := by
  have h' : i < l.reverse.length := by simpa using h
  have h2 : l.length - 1 - i < l.length := by omega
  simp only [nafD, List.getD_eq_getElem?_getD, List.getElem?_eq_getElem h',
    List.getElem?_eq_getElem h2]
  simp [List.getElem_reverse]

theorem nafD_take (l : List Int) (n i : Nat) (h : i < n) :
    nafD (l.take n) i = nafD l i := by
  simp [nafD, List.getD_eq_getElem?_getD, List.getElem?_take_of_lt h]

theorem sep4_reverse_take (l : List Int) (n : Nat) (h3 : Sep4 l) :
    Sep4 ((l.take n).reverse) := by
  intro i j hij hi hj
  set t := l.take n with ht
  by_cases hjm : j < t.length
  · have him : i < t.length := by omega
    have hlen : t.length ≤ n := by
      rw [ht]
      exact le_trans (List.length_take_le n l) (le_refl _)
    rw [nafD_reverse t i him] at hi
    rw [nafD_reverse t j hjm] at hj
    rw [nafD_take l n _ (by omega)] at hi
    rw [nafD_take l n _ (by omega)] at hj
    have := h3 (t.length - 1 - j) (t.length - 1 - i) (by omega) hj hi
    omega
  · exfalso
    apply hj
    apply nafD_ge_length
    simp only [List.length_reverse]
    omega

theorem goodDigits_reverse_take (l : List Int) (n : Nat) (h1 : GoodDigits l) :
    GoodDigits ((l.take n).reverse) := by
  intro d hd
  exact h1 d (List.mem_of_mem_take (List.mem_reverse.mp hd))

theorem w_naf_invariants (k : Nat) : GoodDigits (w_naf k) ∧ Sep4 (w_naf k) := by
  simp only [w_naf]
  by_cases hk : k = 0
  · rw [if_pos hk]
    constructor
    · intro d hd hz
      exact absurd (List.eq_of_mem_replicate hd) hz
    · intro i j hij hi hj
      exact absurd (nafD_replicate _ i) hi
  · rw [if_neg hk]
    have hinv0 : NafInv ⟨k, false, 0, 0, List.replicate (bitsLen k + 1) 0⟩ := by
      refine ⟨?_, ?_, ?_, Or.inl ?_⟩
      · intro d hd hz
        exact absurd (List.eq_of_mem_replicate hd) hz
      · intro i hi
        exact absurd (nafD_replicate _ i) hi
      · intro i j hij hi hj
        exact absurd (nafD_replicate _ i) hi
      · intro i
        exact nafD_replicate _ i
    have hinv := wLoop_inv (bitsLen k) (2 * bitsLen k + 4) _ hinv0
    obtain ⟨h1, _, h3, _⟩ := hinv
    exact ⟨goodDigits_reverse_take _ _ h1, sep4_reverse_take _ _ h3⟩

/-- C4 (amended): every nonzero wNAF digit is odd with absolute value at
most 15, and any two nonzero digits sit at positions at least 4 apart
(i.e. at least 3 zero digits lie between consecutive nonzero digits). -/
theorem c4_wnaf_amended (k : Nat) (d : Int) (hd : d ∈ w_naf k) (hdnz : d ≠ 0)
    (i j : Nat) (hij : i < j)
    (hi0 : (w_naf k).getD i 0 ≠ 0) (hj0 : (w_naf k).getD j 0 ≠ 0) :
    (d.natAbs % 2 = 1 ∧ d.natAbs ≤ 15) ∧ i + 4 ≤ j := by
  obtain ⟨h1, h3⟩ := w_naf_invariants k
  exact ⟨h1 d hd hdnz, h3 i j hij hi0 hj0⟩

/-- Witness for C4 (amended) at k = 17, whose recoding is [1,0,0,0,1]. -/
theorem c4_wnaf_amended_witness :
    (1 : Int) ∈ w_naf 17 ∧ (1 : Int) ≠ 0 ∧ 0 < 4 ∧
    (w_naf 17).getD 0 0 ≠ 0 ∧ (w_naf 17).getD 4 0 ≠ 0 ∧
    (((1 : Int).natAbs % 2 = 1 ∧ (1 : Int).natAbs ≤ 15) ∧ 0 + 4 ≤ 4) :=
  ⟨by decide, by decide, by decide, by decide, by decide,
   c4_wnaf_amended 17 1 (by decide) (by decide) 0 4 (by decide) (by decide) (by decide)⟩

/-- C4 (counterexample): the claim that any two nonzero digits are
separated by at least 4 zero digits fails at scalar 17, whose recoding
[1,0,0,0,1] has consecutive nonzero digits with exactly 3 zeros between
them. -/
theorem c4_wnaf_counterexample :
    ¬ (∀ (k i j : Nat), i < j → (w_naf k).getD i 0 ≠ 0 → (w_naf k).getD j 0 ≠ 0 →
        (∀ t, i < t → t < j → (w_naf k).getD t 0 = 0) → i + 5 ≤ j) := by
  intro h
  have h17 : w_naf 17 = [1, 0, 0, 0, 1] := by decide
  have hc := h 17 0 4 (by omega) (by rw [h17]; decide) (by rw [h17]; decide)
    (by intro t ht1 ht2; rw [h17]; interval_cases t <;> decide)
  omega



/-! Byte-string lemmas for the key codec. -/

theorem fromBytesBE_foldl (l : List Nat) (a : Nat) :
    l.foldl (fun a b => a * 256 + b) a = a * 256 ^ l.length + fromBytesBE l := by
  induction l generalizing a with
  | nil => simp [fromBytesBE]
  | cons b t ih =>
    show t.foldl _ (a * 256 + b) = _
    rw [ih (a * 256 + b)]
    have hb : fromBytesBE (b :: t) = b * 256 ^ t.length + fromBytesBE t := by
      show t.foldl _ (0 * 256 + b) = _
      rw [ih (0 * 256 + b)]
      ring_nf
    rw [hb]
    simp only [List.length_cons, pow_succ]
    ring

theorem fromBytesBE_cons (b : Nat) (t : List Nat) :
    fromBytesBE (b :: t) = b * 256 ^ t.length + fromBytesBE t := by
  show t.foldl _ (0 * 256 + b) = _
  rw [fromBytesBE_foldl]
  ring_nf

theorem fromBytesBE_append (l1 l2 : List Nat) :
    fromBytesBE (l1 ++ l2) = fromBytesBE l1 * 256 ^ l2.length + fromBytesBE l2 := by
  induction l1 with
  | nil => simp [fromBytesBE]
  | cons b t ih =>
    rw [List.cons_append, fromBytesBE_cons, ih, fromBytesBE_cons]
    simp only [List.length_append, pow_add]
    ring

theorem fromBytesBE_lt (l : List Nat) (h : ∀ b ∈ l, b < 256) :
    fromBytesBE l < 256 ^ l.length := by
  induction l with
  | nil => simp [fromBytesBE]
  | cons b t ih =>
    rw [fromBytesBE_cons]
    have hb : b < 256 := h b (by simp)
    have ht : fromBytesBE t < 256 ^ t.length := ih (fun x hx => h x (by simp [hx]))
    have h2 : b * 256 ^ t.length + fromBytesBE t < (b + 1) * 256 ^ t.length := by
      calc b * 256 ^ t.length + fromBytesBE t
          < b * 256 ^ t.length + 256 ^ t.length := Nat.add_lt_add_left ht _
        _ = (b + 1) * 256 ^ t.length := by ring
    have h3 : (b + 1) * 256 ^ t.length ≤ 256 * 256 ^ t.length :=
      Nat.mul_le_mul_right _ (by omega)
    simp only [List.length_cons, pow_succ]
    calc b * 256 ^ t.length + fromBytesBE t < (b + 1) * 256 ^ t.length := h2
      _ ≤ 256 * 256 ^ t.length := h3
      _ = 256 ^ t.length * 256 := by ring

theorem fromBytesBE_replicate_zero (z : Nat) (l : List Nat) :
    fromBytesBE (List.replicate z 0 ++ l) = fromBytesBE l := by
  rw [fromBytesBE_append]
  have hz : fromBytesBE (List.replicate z (0 : Nat)) = 0 := by
    induction z with
    | zero => simp [fromBytesBE]
    | succ n ih => rw [List.replicate_succ, fromBytesBE_cons, ih]; simp
  simp [hz]

theorem bytes_inj : ∀ (bs cs : List Nat), bs.length = cs.length →
    (∀ b ∈ bs, b < 256) → (∀ b ∈ cs, b < 256) →
    fromBytesBE bs = fromBytesBE cs → bs = cs := by
  intro bs
  induction bs with
  | nil =>
    intro cs hlen _ _ _
    have : cs = [] := List.length_eq_zero.mp hlen.symm
    rw [this]
  | cons b t ih =>
    intro cs hlen hb hc hval
    rcases cs with _ | ⟨c, u⟩
    · simp at hlen
    · have hlen' : t.length = u.length := by simpa using hlen
      rw [fromBytesBE_cons, fromBytesBE_cons, hlen'] at hval
      have ht : fromBytesBE t < 256 ^ u.length :=
        hlen' ▸ fromBytesBE_lt t (fun x hx => hb x (by simp [hx]))
      have hu : fromBytesBE u < 256 ^ u.length :=
        fromBytesBE_lt u (fun x hx => hc x (by simp [hx]))
      have hK : 0 < 256 ^ u.length := Nat.pos_pow_of_pos _ (by norm_num)
      have h1 : (b * 256 ^ u.length + fromBytesBE t) / 256 ^ u.length = b := by
        rw [Nat.mul_comm, Nat.mul_add_div hK, Nat.div_eq_of_lt ht]
        omega
      have h2 : (c * 256 ^ u.length + fromBytesBE u) / 256 ^ u.length = c := by
        rw [Nat.mul_comm, Nat.mul_add_div hK, Nat.div_eq_of_lt hu]
        omega
      have hbc : b = c := by rw [← h1, ← h2, hval]
      subst hbc
      have htu : fromBytesBE t = fromBytesBE u := by omega
      rw [ih u hlen' (fun x hx => hb x (by simp [hx])) (fun x hx => hc x (by simp [hx])) htu]

theorem beAux_spec : ∀ (f n : Nat), n < 256 ^ f →
    fromBytesBE (beAux f n) = n ∧ (∀ b ∈ beAux f n, b < 256) := by
  intro f
  induction f with
  | zero =>
    intro n hn
    have : n = 0 := by simpa using hn
    subst this
    exact ⟨rfl, by intro b hb; simp [beAux] at hb⟩
  | succ g ih =>
    intro n hn
    by_cases h0 : n = 0
    · subst h0
      exact ⟨rfl, by intro b hb; simp [beAux] at hb⟩
    · have hrec : n / 256 < 256 ^ g := by
        rw [Nat.div_lt_iff_lt_mul (by norm_num)]
        calc n < 256 ^ (g + 1) := hn
          _ = 256 ^ g * 256 := by rw [pow_succ]
      obtain ⟨hv, hbddd⟩ := ih (n / 256) hrec
      constructor
      · show fromBytesBE (if n = 0 then [] else beAux g (n / 256) ++ [n % 256]) = n
        rw [if_neg h0, fromBytesBE_append, hv]
        have : fromBytesBE [n % 256] = n % 256 := by
          show (0 * 256 + n % 256) = n % 256
          omega
        rw [this]
        simp only [List.length_cons, List.length_nil, pow_one]
        omega
      · show ∀ b ∈ (if n = 0 then [] else beAux g (n / 256) ++ [n % 256]), b < 256
        rw [if_neg h0]
        intro b hbmem
        rcases List.mem_append.mp hbmem with h | h
        · exact hbddd b h
        · have : b = n % 256 := by simpa using h
          subst this
          exact Nat.mod_lt _ (by norm_num)

theorem beAux_length : ∀ (f n L : Nat), n < 256 ^ L → (beAux f n).length ≤ L := by
  intro f
  induction f with
  | zero => intro n L _; simp [beAux]
  | succ g ih =>
    intro n L hn
    show (if n = 0 then [] else beAux g (n / 256) ++ [n % 256]).length ≤ L
    by_cases h0 : n = 0
    · simp [h0]
    · rw [if_neg h0]
      have hL : 1 ≤ L := by
        by_contra hc
        have : L = 0 := by omega
        subst this
        simp at hn
        omega
      have hrec : n / 256 < 256 ^ (L - 1) := by
        rw [Nat.div_lt_iff_lt_mul (by norm_num)]
        calc n < 256 ^ L := hn
          _ = 256 ^ (L - 1) * 256 := by
            rw [← pow_succ]
            congr 1
            omega
      have := ih (n / 256) (L - 1) hrec
      simp only [List.length_append, List.length_cons, List.length_nil]
      omega

theorem toBytesBE_spec (n : Nat) :
    fromBytesBE (toBytesBE n) = n ∧ (∀ b ∈ toBytesBE n, b < 256) := by
  by_cases h0 : n = 0
  · subst h0
    constructor
    · show (0 * 256 + 0 : Nat) = 0
      omega
    · intro b hb
      simp [toBytesBE] at hb
      omega
  · have hlt : n < 256 ^ n := Nat.lt_pow_self (by norm_num) n
    obtain ⟨hv, hbd⟩ := beAux_spec n n hlt
    rw [toBytesBE, if_neg h0]
    exact ⟨hv, hbd⟩

theorem toBytesBE_length (n L : Nat) (h : n < 256 ^ L) (hL : 1 ≤ L) :
    (toBytesBE n).length ≤ L := by
  by_cases h0 : n = 0
  · subst h0
    simp [toBytesBE]
    omega
  · rw [toBytesBE, if_neg h0]
    exact beAux_length n n L h

/-- `fixed32` of any byte string bs with bytes < 256 has length 32, bytes
< 256, and value `fromBytesBE bs % 2^256`. -/
theorem fixed32_spec (bs : List Nat) (hb : ∀ b ∈ bs, b < 256) :
    (fixed32 bs).length = 32 ∧ (∀ b ∈ fixed32 bs, b < 256) ∧
    fromBytesBE (fixed32 bs) = fromBytesBE bs % 2 ^ 256 := by
  have h2256 : (256 : Nat) ^ 32 = 2 ^ 256 := by norm_num
  by_cases hlen : bs.length > 32
  · rw [fixed32, if_pos hlen]
    have hdl : (bs.drop (bs.length - 32)).length = 32 := by
      simp [List.length_drop]
      omega
    refine ⟨hdl, ?_, ?_⟩
    · intro b hbm
      exact hb b (List.mem_of_mem_drop hbm)
    · have hsplit : bs = bs.take (bs.length - 32) ++ bs.drop (bs.length - 32) :=
        (List.take_append_drop _ bs).symm
      have hdlt : fromBytesBE (bs.drop (bs.length - 32)) < 2 ^ 256 := by
        have := fromBytesBE_lt (bs.drop (bs.length - 32))
          (fun b hbm => hb b (List.mem_of_mem_drop hbm))
        rw [hdl] at this
        rw [← h2256]
        exact this
      conv_rhs => rw [hsplit]
      rw [fromBytesBE_append, hdl, h2256, Nat.mul_comm, Nat.mul_add_mod, Nat.mod_eq_of_lt hdlt]
  · rw [fixed32, if_neg hlen]
    have hlen' : bs.length ≤ 32 := by omega
    have hval : fromBytesBE bs < 2 ^ 256 := by
      calc fromBytesBE bs < 256 ^ bs.length := fromBytesBE_lt bs hb
        _ ≤ 256 ^ 32 := Nat.pow_le_pow_right (by norm_num) hlen'
        _ = 2 ^ 256 := h2256
    refine ⟨?_, ?_, ?_⟩
    · simp [List.length_append, List.length_replicate]
      omega
    · intro b hbm
      rcases List.mem_append.mp hbm with h | h
      · have := List.eq_of_mem_replicate h
        omega
      · exact hb b h
    · rw [fromBytesBE_replicate_zero, Nat.mod_eq_of_lt hval]

/-- The encoder core: `fixed32 (toBytesBE n)` is the canonical 32-byte
big-endian form of n mod 2^256. -/
theorem fixed32_toBytesBE (n : Nat) :
    (fixed32 (toBytesBE n)).length = 32 ∧ (∀ b ∈ fixed32 (toBytesBE n), b < 256) ∧
    fromBytesBE (fixed32 (toBytesBE n)) = n % 2 ^ 256 := by
  obtain ⟨hv, hbd⟩ := toBytesBE_spec n
  obtain ⟨h1, h2, h3⟩ := fixed32_spec (toBytesBE n) hbd
  exact ⟨h1, h2, by rw [h3, hv]⟩

theorem fixed32_mod (n : Nat) :
    fixed32 (toBytesBE n) = fixed32 (toBytesBE (n % 2 ^ 256)) := by
  obtain ⟨ha1, ha2, ha3⟩ := fixed32_toBytesBE n
  obtain ⟨hb1, hb2, hb3⟩ := fixed32_toBytesBE (n % 2 ^ 256)
  refine bytes_inj _ _ (by omega) ha2 hb2 ?_
  rw [ha3, hb3, Nat.mod_mod_of_dvd _ (dvd_refl _)]


/-- A byte that is a lowercase hex digit character (0-9 or a-f). -/
def isLowerHexDigit (c : Nat) : Prop := (48 ≤ c ∧ c ≤ 57) ∨ (97 ≤ c ∧ c ≤ 102)

instance (c : Nat) : Decidable (isLowerHexDigit c) := by
  unfold isLowerHexDigit
  infer_instance

theorem hexDigit_lower (d : Nat) (h : d < 16) : isLowerHexDigit (hexDigit d) := by
  rw [hexDigit]
  by_cases h10 : d < 10
  · rw [if_pos h10]
    exact Or.inl (by omega)
  · rw [if_neg h10]
    exact Or.inr (by omega)

theorem hexEncode_cons (b : Nat) (t : List Nat) :
    hexEncode (b :: t) = hexDigit (b / 16) :: hexDigit (b % 16) :: hexEncode t := rfl

theorem hexEncode_length (bs : List Nat) : (hexEncode bs).length = 2 * bs.length := by
  induction bs with
  | nil => rfl
  | cons b t ih =>
    rw [hexEncode_cons]
    simp only [List.length_cons, ih]
    omega

theorem hexEncode_lower (bs : List Nat) (h : ∀ b ∈ bs, b < 256) :
    ∀ c ∈ hexEncode bs, isLowerHexDigit c := by
  induction bs with
  | nil => intro c hc; simp [hexEncode] at hc
  | cons b t ih =>
    intro c hc
    rw [hexEncode_cons] at hc
    have hb : b < 256 := h b (by simp)
    simp only [List.mem_cons] at hc
    rcases hc with rfl | rfl | hc
    · exact hexDigit_lower _ (by omega)
    · exact hexDigit_lower _ (by omega)
    · exact ih (fun x hx => h x (by simp [hx])) c hc

/-- C9: `encode` always returns exactly 64 (private) / 130 (public)
lowercase hex characters, and when the integer has more than 32 bytes
only its lowest 32 bytes are encoded: the output equals the encoding of
the value reduced mod 2²⁵⁶. -/
theorem c9_encode_shape (d x y : Nat) :
    (privEncode d).length = 64 ∧ (∀ c ∈ privEncode d, isLowerHexDigit c) ∧
    privEncode d = privEncode (d % 2 ^ 256) ∧
    (pubEncode x y).length = 130 ∧ (∀ c ∈ pubEncode x y, isLowerHexDigit c) ∧
    pubEncode x y = pubEncode (x % 2 ^ 256) (y % 2 ^ 256) := by
  obtain ⟨hd1, hd2, _⟩ := fixed32_toBytesBE d
  obtain ⟨hx1, hx2, _⟩ := fixed32_toBytesBE x
  obtain ⟨hy1, hy2, _⟩ := fixed32_toBytesBE y
  refine ⟨?_, ?_, ?_, ?_, ?_, ?_⟩
  · rw [privEncode, hexEncode_length, hd1]
  · exact hexEncode_lower _ hd2
  · rw [privEncode, privEncode, fixed32_mod d]
  · rw [pubEncode, hexEncode_length]
    simp only [List.length_cons, List.length_append, hx1, hy1]
  · refine hexEncode_lower _ ?_
    intro b hbm
    simp only [List.mem_cons] at hbm
    rcases hbm with rfl | hbm
    · omega
    · rcases List.mem_append.mp hbm with h | h
      · exact hx2 b h
      · exact hy2 b h
  · rw [pubEncode, pubEncode, fixed32_mod x, fixed32_mod y]

/-- Witness for C9 at d = x = y = 0. -/
theorem c9_encode_shape_witness :
    (privEncode 0).length = 64 ∧ (∀ c ∈ privEncode 0, isLowerHexDigit c) ∧
    privEncode 0 = privEncode (0 % 2 ^ 256) ∧
    (pubEncode 0 0).length = 130 ∧ (∀ c ∈ pubEncode 0 0, isLowerHexDigit c) ∧
    pubEncode 0 0 = pubEncode (0 % 2 ^ 256) (0 % 2 ^ 256) :=
  c9_encode_shape 0 0 0

/-- The error kinds of the key codec (spec §7 FormatError): `badLen`
models InvalidLength ("The length ... must be ..."), `badTag` models
InvalidPrefix ("The compressed public key is invalid", raised when the
string does not begin with "04"), `badHex` models InvalidEncoding ("must
be composed of hex chars"), and `panicked` models the out-of-range slice
`&key[..32]` in `PublicKey::decode`. -/
inductive KeyErr where
  | badLen
  | badTag
  | badHex
  | panicked
deriving DecidableEq

/-- The value of one hex-digit byte, both cases accepted (`hex::decode`
and `from_str_radix` semantics). -/
def hexVal (c : Nat) : Option Nat :=
  if 48 ≤ c ∧ c ≤ 57 then some (c - 48)
  else if 97 ≤ c ∧ c ≤ 102 then some (c - 87)
  else if 65 ≤ c ∧ c ≤ 70 then some (c - 55)
  else none

/-- `hex::decode` (external collaborator): pairs of hex characters become
bytes; odd length or a non-hex character fails. -/
def hexDecode : List Nat → Option (List Nat)
  | [] => some []
  | [_] => none
  | a :: b :: rest =>
    match hexVal a, hexVal b, hexDecode rest with
    | some x, some y, some tl => some ((16 * x + y) :: tl)
    | _, _, _ => none

/-- `str::trim_start_matches("04")` as used in `PublicKey::decode`
(key.rs line 66): repeatedly removes a leading "04" (bytes 48, 52) — not
just the first occurrence. -/
def stripAll04 : List Nat → List Nat
  | a :: b :: rest => if a = 48 ∧ b = 52 then stripAll04 rest else a :: b :: rest
  | l => l

/-- The digit fold of `BigUint::from_str_radix(s, 16)`. -/
def parseHexCore (l : List Nat) : Option Nat :=
  l.foldl
    (fun acc c =>
      match acc, hexVal c with
      | some a, some v => some (a * 16 + v)
      | _, _ => none)
    (some 0)

/-- `BigUint::from_str_radix(s, 16)` (external collaborator): an optional
single leading '+' (byte 43), then at least one hex digit. -/
def parseHex (l : List Nat) : Option Nat :=
  match l with
  | [] => none
  | 43 :: rest => if rest.isEmpty then none else parseHexCore rest
  | _ => parseHexCore l

/-- `PrivateKey::decode` (key.rs lines 109-118): a string (as its UTF-8
bytes) of length ≠ 64 fails with InvalidLength, a non-hex string with
InvalidEncoding; otherwise the parsed value. -/
def privDecode (s : List Nat) : Except KeyErr Nat :=
  if s.length ≠ 64 then Except.error KeyErr.badLen
  else
    match parseHex s with
    | some v => Except.ok v
    | none => Except.error KeyErr.badHex

/-- `PublicKey::decode` (key.rs lines 57-75): length-130 and "04"-tag
checks, strip of every leading "04" via `trim_start_matches`, hex decode,
then X from bytes 0..32 and Y from the remaining bytes; fewer than 32
decoded bytes make the slice `&key[..32]` panic. -/
def pubDecode (s : List Nat) : Except KeyErr (Nat × Nat) :=
  if s.length ≠ 130 then Except.error KeyErr.badLen
  else if s.take 2 ≠ [48, 52] then Except.error KeyErr.badTag
  else
    match hexDecode (stripAll04 s) with
    | none => Except.error KeyErr.badHex
    | some bytes =>
      if bytes.length < 32 then Except.error KeyErr.panicked
      else Except.ok (fromBytesBE (bytes.take 32), fromBytesBE (bytes.drop 32))

/-- C7: private-key decode fails with InvalidLength on every string whose
length is not 64; public-key decode fails with InvalidLength on every
string whose length is not 130 and with InvalidPrefix on every 130-byte
string not starting with "04"; in each case no key value is produced. -/
theorem c7_decode_error_cases (s t u : List Nat) (hs : s.length ≠ 64)
    (ht : t.length ≠ 130) (hu : u.length = 130) (hu2 : u.take 2 ≠ [48, 52]) :
    privDecode s = Except.error KeyErr.badLen ∧
    pubDecode t = Except.error KeyErr.badLen ∧
    pubDecode u = Except.error KeyErr.badTag := by
  refine ⟨?_, ?_, ?_⟩
  · rw [privDecode, if_pos hs]
  · rw [pubDecode, if_pos ht]
  · rw [pubDecode, if_neg (by omega), if_pos hu2]

set_option maxRecDepth 10000 in
/-- Witness for C7 at the concrete inputs "" and "aaa…a" (130 bytes). -/
theorem c7_decode_error_cases_witness :
    ([] : List Nat).length ≠ 64 ∧ ([] : List Nat).length ≠ 130 ∧
    (List.replicate 130 97).length = 130 ∧
    (List.replicate 130 97).take 2 ≠ [48, 52] ∧
    (privDecode [] = Except.error KeyErr.badLen ∧
     pubDecode [] = Except.error KeyErr.badLen ∧
     pubDecode (List.replicate 130 97) = Except.error KeyErr.badTag) :=
  ⟨by decide, by decide, by decide, by decide,
   c7_decode_error_cases [] [] (List.replicate 130 97)
     (by decide) (by decide) (by decide) (by decide)⟩


/-- A byte that is a hex digit character of either case. -/
def isHexDigit (c : Nat) : Prop :=
  (48 ≤ c ∧ c ≤ 57) ∨ (97 ≤ c ∧ c ≤ 102) ∨ (65 ≤ c ∧ c ≤ 70)

instance (c : Nat) : Decidable (isHexDigit c) := by
  unfold isHexDigit
  infer_instance

theorem hexVal_lower (c : Nat) (h : isLowerHexDigit c) :
    ∃ v, hexVal c = some v ∧ v < 16 ∧ hexDigit v = c := by
  rcases h with ⟨ha, hb⟩ | ⟨ha, hb⟩
  · refine ⟨c - 48, ?_, by omega, ?_⟩
    · rw [hexVal, if_pos ⟨ha, hb⟩]
    · rw [hexDigit, if_pos (by omega)]
      omega
  · refine ⟨c - 87, ?_, by omega, ?_⟩
    · rw [hexVal, if_neg (by omega), if_pos ⟨ha, hb⟩]
    · rw [hexDigit, if_neg (by omega)]
      omega

theorem hexDecode_roundtrip : ∀ l : List Nat, (∀ c ∈ l, isLowerHexDigit c) →
    l.length % 2 = 0 →
    ∃ bs, hexDecode l = some bs ∧ hexEncode bs = l ∧ 2 * bs.length = l.length ∧
      ∀ b ∈ bs, b < 256 := by
  intro l
  induction l using hexDecode.induct with
  | case1 =>
    intro _ _
    exact ⟨[], rfl, rfl, rfl, by intro b hb; simp at hb⟩
  | case2 a =>
    intro _ hlen
    simp at hlen
  | case3 a b rest x y tl hdecr hyv hxv ih =>
    intro hlow hlen
    obtain ⟨bs, hdec, henc, hblen, hbd⟩ :=
      ih (fun c hc => hlow c (by simp [hc])) (by simp at hlen ⊢; omega)
    obtain ⟨x', hxv', hx16, hxd⟩ := hexVal_lower a (hlow a (by simp))
    obtain ⟨y', hyv', hy16, hyd⟩ := hexVal_lower b (hlow b (by simp))
    rw [hxv] at hxv'
    rw [hyv] at hyv'
    obtain rfl : x = x' := Option.some.inj hxv'
    obtain rfl : y = y' := Option.some.inj hyv'
    refine ⟨(16 * x + y) :: bs, ?_, ?_, ?_, ?_⟩
    · simp only [hexDecode, hxv, hyv, hdec]
    · rw [hexEncode_cons]
      have hdiv : (16 * x + y) / 16 = x := by omega
      have hmod : (16 * x + y) % 16 = y := by omega
      rw [hdiv, hmod, hxd, hyd, henc]
    · simp only [List.length_cons]
      omega
    · intro v hv
      simp only [List.mem_cons] at hv
      rcases hv with rfl | hv
      · omega
      · exact hbd v hv
  | case4 a b rest hfail ih =>
    intro hlow hlen
    obtain ⟨x', hxv', _, _⟩ := hexVal_lower a (hlow a (by simp))
    obtain ⟨y', hyv', _, _⟩ := hexVal_lower b (hlow b (by simp))
    obtain ⟨bs, hdec, _, _, _⟩ :=
      ih (fun c hc => hlow c (by simp [hc])) (by simp at hlen ⊢; omega)
    exact (hfail x' y' bs hxv' hyv' hdec).elim

theorem stripAll04_no04 (l : List Nat) (h : l.take 2 ≠ [48, 52]) :
    stripAll04 l = l := by
  match l with
  | [] => rfl
  | [a] => rfl
  | a :: b :: t =>
    show (if a = 48 ∧ b = 52 then stripAll04 t else a :: b :: t) = a :: b :: t
    rw [if_neg]
    rintro ⟨rfl, rfl⟩
    exact h rfl

theorem hexEncode_four (bs : List Nat) :
    hexEncode (4 :: bs) = 48 :: 52 :: hexEncode bs := by
  rw [hexEncode_cons]
  norm_num [hexDigit]

/-- C5 (amended): for every 130-byte string of lowercase hex characters
that starts with "04" and whose characters at positions 2-3 are not a
second "04" (`trim_start_matches` would strip that too), encoding the
decode gives back the string. -/
theorem c5_pub_roundtrip_amended (s : List Nat) (h1 : s.length = 130)
    (h2 : s.take 2 = [48, 52]) (h3 : ∀ c ∈ s, isLowerHexDigit c)
    (h4 : (s.drop 2).take 2 ≠ [48, 52]) :
    Except.map (fun p : Nat × Nat => pubEncode p.1 p.2) (pubDecode s) =
      Except.ok s := by
  rcases s with _ | ⟨a, _ | ⟨b, body⟩⟩
  · simp at h1
  · simp at h1
  · obtain ⟨rfl, rfl⟩ : a = 48 ∧ b = 52 := by
      simp [List.take] at h2
      exact h2
    have hbodylen : body.length = 128 := by simpa using h1
    have hbody04 : body.take 2 ≠ [48, 52] := by simpa using h4
    have hstrip : stripAll04 (48 :: 52 :: body) = body := by
      show (if (48 : Nat) = 48 ∧ (52 : Nat) = 52 then stripAll04 body else _) = body
      rw [if_pos ⟨rfl, rfl⟩]
      exact stripAll04_no04 body hbody04
    obtain ⟨bs, hdec, henc, hblen, hbd⟩ :=
      hexDecode_roundtrip body (fun c hc => h3 c (by simp [hc])) (by omega)
    have hbs64 : bs.length = 64 := by omega
    have htake : (bs.take 32).length = 32 := by
      rw [List.length_take]
      omega
    have hdrop : (bs.drop 32).length = 32 := by
      rw [List.length_drop]
      omega
    have hxlt : fromBytesBE (bs.take 32) < 2 ^ 256 := by
      have := fromBytesBE_lt (bs.take 32) (fun v hv => hbd v (List.mem_of_mem_take hv))
      rw [htake] at this
      calc fromBytesBE (bs.take 32) < 256 ^ 32 := this
        _ = 2 ^ 256 := by norm_num
    have hylt : fromBytesBE (bs.drop 32) < 2 ^ 256 := by
      have := fromBytesBE_lt (bs.drop 32) (fun v hv => hbd v (List.mem_of_mem_drop hv))
      rw [hdrop] at this
      calc fromBytesBE (bs.drop 32) < 256 ^ 32 := this
        _ = 2 ^ 256 := by norm_num
    have hx32 : fixed32 (toBytesBE (fromBytesBE (bs.take 32))) = bs.take 32 := by
      obtain ⟨g1, g2, g3⟩ := fixed32_toBytesBE (fromBytesBE (bs.take 32))
      refine bytes_inj _ _ (by rw [g1, htake]) g2
        (fun v hv => hbd v (List.mem_of_mem_take hv)) ?_
      rw [g3, Nat.mod_eq_of_lt hxlt]
    have hy32 : fixed32 (toBytesBE (fromBytesBE (bs.drop 32))) = bs.drop 32 := by
      obtain ⟨g1, g2, g3⟩ := fixed32_toBytesBE (fromBytesBE (bs.drop 32))
      refine bytes_inj _ _ (by rw [g1, hdrop]) g2
        (fun v hv => hbd v (List.mem_of_mem_drop hv)) ?_
      rw [g3, Nat.mod_eq_of_lt hylt]
    have hpd : pubDecode (48 :: 52 :: body) =
        Except.ok (fromBytesBE (bs.take 32), fromBytesBE (bs.drop 32)) := by
      rw [pubDecode, if_neg (by simp [hbodylen]), if_neg (by simp), hstrip, hdec]
      show (if bs.length < 32 then Except.error KeyErr.panicked
        else Except.ok (fromBytesBE (bs.take 32), fromBytesBE (bs.drop 32))) = _
      rw [if_neg (by omega)]
    rw [hpd]
    show Except.ok
      (pubEncode (fromBytesBE (bs.take 32)) (fromBytesBE (bs.drop 32))) = _
    rw [pubEncode, hx32, hy32, List.take_append_drop, hexEncode_four, henc]

set_option maxRecDepth 10000 in
/-- Witness for C5 (amended) at the concrete string "04" + "ab"·64. -/
theorem c5_pub_roundtrip_amended_witness :
    (48 :: 52 :: (List.replicate 64 [97, 98]).flatten).length = 130 ∧
    (48 :: 52 :: (List.replicate 64 [97, 98]).flatten).take 2 = [48, 52] ∧
    (∀ c ∈ 48 :: 52 :: (List.replicate 64 [97, 98]).flatten, isLowerHexDigit c) ∧
    ((48 :: 52 :: (List.replicate 64 [97, 98]).flatten).drop 2).take 2 ≠ [48, 52] ∧
    Except.map (fun p : Nat × Nat => pubEncode p.1 p.2)
        (pubDecode (48 :: 52 :: (List.replicate 64 [97, 98]).flatten)) =
      Except.ok (48 :: 52 :: (List.replicate 64 [97, 98]).flatten) :=
  ⟨by decide, by decide, by decide, by decide,
   c5_pub_roundtrip_amended _ (by decide) (by decide) (by decide) (by decide)⟩

deriving instance DecidableEq for Except

/-- The 130-byte string "0404" + "ab"·63: a well-formed public-key string
on which `trim_start_matches` strips both leading "04" pairs. -/
def badPub : List Nat := 48 :: 52 :: 48 :: 52 :: (List.replicate 63 [97, 98]).flatten

set_option maxRecDepth 100000 in
/-- C5 (counterexample): the claimed round trip fails at
"0404abab…ab": decode strips both "04" pairs, reads X from the following
32 bytes and Y from the remaining 31 bytes, and encode returns
"04" + X + "00" + Y, not the original string. -/
theorem c5_pub_roundtrip_counterexample :
    ¬ (∀ s : List Nat, s.length = 130 → s.take 2 = [48, 52] →
        (∀ c ∈ s, isHexDigit c) →
        Except.map (fun p : Nat × Nat => pubEncode p.1 p.2) (pubDecode s) =
          Except.ok s) := by
  intro h
  have hc := h badPub (by decide) (by decide) (by decide)
  revert hc
  decide

end SM2
